import Mathlib

/-!
# Verification of the FFDS results provider (`lib/providers/ffds.js`)

This file gives a shallow embedding, in Lean 4, of the pure core of the
FFDS competition-results provider: the couple-name normalizer
(`cleanNames`), the contest-title cleaner (`cleanContest`), the season
predicates (`isFirstHalf`, `isWithinSeason`), the competition header id
computation, the ranking first-occurrence accumulation of
`extractRanking`, the competition merge/dedup step, the serial task
runner, the listing-endpoint selection of `listResults`, and the
argument validation of `getGroupCouples`.

JavaScript strings are modelled as Lean `String`/`List Char`; the JS
library helpers used by the source (`String.prototype.split`,
`replace`, `trim`, `toLowerCase`, and underscore.string's `stripTags`,
`titleize`) are embedded from their documented semantics, restricted in
the case-mapping tables to the Latin-1 range actually produced by the
federation's pages. Repository helpers that live outside the provider
file (`removeAccents`, `mergeCompetitions`, `runSerially`, the
`Competition` model) are modelled from the specification and marked as
such in their doc comments.
-/

set_option autoImplicit false

namespace Ffds

/-! ## JavaScript string primitives -/

/-- JS `\s` (whitespace class), restricted to the ASCII whitespace
characters and NBSP that occur in the provider's input. -/
def isSpaceJs (c : Char) : Bool :=
  c == ' ' || c == '\t' || c == '\n' || c == '\r' ||
  c.toNat == 11 || c.toNat == 12 || c.toNat == 160

/-- JS `String.prototype.toLowerCase`, restricted to the ASCII and
Latin-1 letters (the accent set of the source language): `A`–`Z` and
`À`–`Þ` (except `×`) map to the code point 32 higher. -/
def jsToLowerChar (c : Char) : Char :=
  if 65 ≤ c.toNat ∧ c.toNat ≤ 90 then Char.ofNat (c.toNat + 32)
  else if 192 ≤ c.toNat ∧ c.toNat ≤ 222 ∧ c.toNat ≠ 215 then Char.ofNat (c.toNat + 32)
  else c

def jsToLower (s : String) : String :=
  String.mk (s.data.map jsToLowerChar)

/-- JS `String.prototype.toUpperCase`, restricted to ASCII and Latin-1
letters: `a`–`z` and `à`–`þ` (except `÷`) map 32 lower; `ÿ` maps to `Ÿ`. -/
def jsToUpperChar (c : Char) : Char :=
  if 97 ≤ c.toNat ∧ c.toNat ≤ 122 then Char.ofNat (c.toNat - 32)
  else if 224 ≤ c.toNat ∧ c.toNat ≤ 254 ∧ c.toNat ≠ 247 then Char.ofNat (c.toNat - 32)
  else if c.toNat = 255 then Char.ofNat 376
  else c

/-- `listStarts pat l` decides whether `pat` is an initial segment of `l`. -/
def listStarts : List Char → List Char → Bool
  | [], _ => true
  | _ :: _, [] => false
  | p :: ps, c :: cs => p == c && listStarts ps cs

/-- Substring test (used to embed JS `RegExp.test` on a literal pattern
and `String.prototype.includes`). -/
def containsSub (pat : List Char) : List Char → Bool
  | [] => listStarts pat []
  | c :: t => listStarts pat (c :: t) || containsSub pat t

/-- JS `String.prototype.replace` with a plain-string pattern: replaces
only the first (leftmost) occurrence, and returns the string unchanged
when the pattern does not occur. -/
def replaceFirst (pat rep : List Char) : List Char → List Char
  | [] => if listStarts pat [] then rep else []
  | c :: t =>
    if listStarts pat (c :: t) then rep ++ (c :: t).drop pat.length
    else c :: replaceFirst pat rep t

/-- JS `String.prototype.trim`: drop whitespace from both ends. -/
def trimList (l : List Char) : List Char :=
  ((l.dropWhile isSpaceJs).reverse.dropWhile isSpaceJs).reverse

def trimJs (s : String) : String :=
  String.mk (trimList s.data)

/-- JS `String.prototype.split` with a non-empty plain-string separator:
cut at each leftmost non-overlapping occurrence.  The `skip` counter
consumes the remaining characters of a just-matched separator one at a
time, keeping the recursion structural.  (The provider only splits on
`"<br>"`; the empty-separator behaviour of JS is not needed and the
guard below just returns the input whole in that case.) -/
def splitSkip (sep : List Char) : List Char → Nat → List Char → List (List Char)
  | [], _, acc => [acc.reverse]
  | _ :: t, Nat.succ k, acc => splitSkip sep t k acc
  | c :: t, 0, acc =>
    if sep ≠ [] ∧ listStarts sep (c :: t) then
      acc.reverse :: splitSkip sep t (sep.length - 1) []
    else
      splitSkip sep t 0 (c :: acc)

def jsSplit (s : String) (sep : String) : List String :=
  (splitSkip sep.data s.data 0 []).map String.mk

/-- underscore.string `stripTags`: global replacement of the pattern
"`<`, one or more non-`>` characters, `>`" by the empty string.  (The
library's pattern has an optional `/` after `<`, which is subsumed by
the one-or-more non-`>` body.)  At a `<` the tag is recognized by
lookahead (a non-empty run of non-`>` characters closed by `>`); the
`skip` counter then consumes the recognized tag one character at a
time, keeping the recursion structural. -/
def stripSkip : List Char → Nat → List Char
  | [], _ => []
  | _ :: t, Nat.succ k => stripSkip t k
  | c :: t, 0 =>
    if c = '<' then
      match t.dropWhile (fun d => d ≠ '>') with
      | '>' :: _ =>
        if t.takeWhile (fun d => d ≠ '>') = [] then c :: stripSkip t 0
        else stripSkip t ((t.takeWhile (fun d => d ≠ '>')).length + 1)
      | _ => c :: stripSkip t 0
    else c :: stripSkip t 0

def stripTags (s : String) : String :=
  String.mk (stripSkip s.data 0)

/-- underscore.string `titleize` scanning pass: the global regex
`(?:^|\s|-)S` (where `S` is a non-whitespace character) uppercases each
match; after the start-of-string case has been handled, a match consumes
a boundary character (whitespace or `-`) together with the following
non-whitespace character, which is uppercased. -/
def tScan : List Char → List Char
  | [] => []
  | c :: rest =>
    if isSpaceJs c || c == '-' then
      match rest with
      | [] => [c]
      | d :: rest' =>
        if isSpaceJs d then c :: tScan (d :: rest')
        else c :: jsToUpperChar d :: tScan rest'
    else c :: tScan rest

/-- underscore.string `titleize`: lower-case the whole string, then
uppercase every non-whitespace character at the start or right after a
whitespace or `-` (with the regex's left-to-right consumption). -/
def jsTitleize (s : String) : String :=
  match (jsToLower s).data with
  | [] => ""
  | c :: rest =>
    if isSpaceJs c then String.mk (tScan (c :: rest))
    else String.mk (jsToUpperChar c :: tScan rest)

/-- Modelled from the spec: the repository utility `removeAccents`
(`lib/utils`, not under `src/`) strips diacritics from the source
language's accent set, mapping each accented Latin-1 letter to its
unaccented base letter and leaving every other character unchanged. -/
def removeAccentChar (c : Char) : Char :=
  let n := c.toNat
  if 192 ≤ n ∧ n ≤ 197 then 'A'
  else if n = 199 then 'C'
  else if 200 ≤ n ∧ n ≤ 203 then 'E'
  else if 204 ≤ n ∧ n ≤ 207 then 'I'
  else if n = 209 then 'N'
  else if 210 ≤ n ∧ n ≤ 214 then 'O'
  else if 217 ≤ n ∧ n ≤ 220 then 'U'
  else if n = 221 then 'Y'
  else if 224 ≤ n ∧ n ≤ 229 then 'a'
  else if n = 231 then 'c'
  else if 232 ≤ n ∧ n ≤ 235 then 'e'
  else if 236 ≤ n ∧ n ≤ 239 then 'i'
  else if n = 241 then 'n'
  else if 242 ≤ n ∧ n ≤ 246 then 'o'
  else if 249 ≤ n ∧ n ≤ 252 then 'u'
  else if n = 253 ∨ n = 255 then 'y'
  else c

/-- Modelled from the spec: see `removeAccentChar`. -/
def removeAccents (s : String) : String :=
  String.mk (s.data.map removeAccentChar)

/-! ## `cleanNames` (ffds.js lines 39–82) -/

/-- Character classification of the source (ffds.js line 53): uppercase
means char code 65–90 (`A`–`Z`) or 192–221 (`À`–`Ý`). -/
def isUpperCode (c : Char) : Bool :=
  (65 ≤ c.toNat && c.toNat ≤ 90) || (192 ≤ c.toNat && c.toNat ≤ 221)

/-- Separator classification of the source (ffds.js line 58): char code
32 (space), 39 (apostrophe) or 45 (hyphen). -/
def isSepCode (c : Char) : Bool :=
  c.toNat == 32 || c.toNat == 39 || c.toNat == 45

/-- Scanner state of the `cleanNames` character loop: the `last`
(surname) and `first` (forename) accumulators and the `prevUpper` flag. -/
structure ScanSt where
  last : List Char
  first : List Char
  prevUpper : Bool
deriving DecidableEq

/-- One step of the `cleanNames` character loop (ffds.js lines 51–77).
`prev` is the previous character of the input (`dancer.slice(i-1, i+1)`
in the source is previous char + current char); the branch using it
fires only when `prevUpper` is set, which requires `i ≥ 1`, so the
`none` case is unreachable from the initial state. -/
def scanStep (prev : Option Char) (c : Char) (s : ScanSt) : ScanSt :=
  if isUpperCode c then
    { s with last := s.last ++ [c], prevUpper := true }
  else if isSepCode c then
    if s.prevUpper then { s with last := s.last ++ [c], prevUpper := false }
    else { s with first := s.first ++ [c], prevUpper := false }
  else
    if s.prevUpper then
      { s with last := s.last.dropLast,
               first := s.first ++ prev.toList ++ [c],
               prevUpper := false }
    else { s with first := s.first ++ [c] }

def scanChars : Option Char → ScanSt → List Char → ScanSt
  | _, s, [] => s
  | prev, s, c :: rest => scanChars (some c) (scanStep prev c s) rest

/-- One dancer of `cleanNames` (ffds.js lines 44–80): strip the
remaining HTML, run the character scan from the empty state, then
return `removeAccents(first) ++ " " ++ removeAccents(last)`. -/
def parseDancer (raw : String) : String :=
  let dancer := stripTags raw
  let st := scanChars none ⟨[], [], false⟩ dancer.data
  removeAccents (String.mk st.first) ++ " " ++ removeAccents (String.mk st.last)

/-- The fixed sentinel of `cleanNames` (ffds.js lines 40–42). -/
def sentinel : String := "couple inconnu"

/-- The break marker between the two dancers' display names. -/
def brTag : String := "<br>"

/-- JS `titleize(results[i])`: `results[1]` is `undefined` when the
input held a single name, and underscore.string's `makeString` turns
`undefined` into the empty string. -/
def jsTitleizeAt (l : List String) (i : Nat) : String :=
  match l.get? i with
  | some s => jsTitleize s
  | none => ""

/-- `cleanNames` (ffds.js lines 39–82): sentinel short-circuit, split on
`"<br>"`, parse each dancer, then titleize the two entries joined by
`" - "`. -/
def cleanNames (names : String) : String :=
  if containsSub sentinel.data (jsToLower names).data then sentinel
  else
    let results := (jsSplit names brTag).map parseDancer
    jsTitleizeAt results 0 ++ " - " ++ jsTitleizeAt results 1

/-! ## `cleanContest` (ffds.js lines 90–91) -/

def pointsLabel : String := "Compétition à points"

def noPointsLabel : String := "Compétition sans points"

/-- `cleanContest` (ffds.js lines 90–91):
`original.replace('Compétition à points', '').replace('Compétition sans points', '').trim()`,
where JS `replace` with a string pattern replaces only the first
occurrence. -/
def cleanContest (original : String) : String :=
  trimJs (String.mk (replaceFirst noPointsLabel.data []
    (replaceFirst pointsLabel.data [] original.data)))

/-! ## Season predicates (ffds.js lines 99–110) -/

/-- A calendar date as the source reads it off a `moment` value:
`.year()`, `.month()` (zero-indexed, January = 0) and `.date()`. -/
structure MDate where
  year : Int
  month : Nat
  day : Nat
deriving DecidableEq

/-- `isFirstHalf` (ffds.js lines 99–100):
`date.month() < 7 || (date.month() === 7 && date.date() <= 14)`. -/
def isFirstHalf (date : MDate) : Bool :=
  date.month < 7 || (date.month == 7 && date.day ≤ 14)

/-- `isWithinSeason` (ffds.js lines 109–110):
`(year === date.year() && !isFirstHalf(date)) || (year + 1 === date.year() && isFirstHalf(date))`. -/
def isWithinSeason (year : Int) (date : MDate) : Bool :=
  (year == date.year && !isFirstHalf date) ||
  (year + 1 == date.year && isFirstHalf date)

/-- Lexicographic order on calendar dates (year, then month, then day);
used to state what "d lies between August 15 of year y and August 14 of
year y+1" means. -/
def dateLe (a b : MDate) : Prop :=
  a.year < b.year ∨
  (a.year = b.year ∧ (a.month < b.month ∨ (a.month = b.month ∧ a.day ≤ b.day)))

/-- August 15 of a year (month index 7). -/
def aug15 (y : Int) : MDate := ⟨y, 7, 15⟩

/-- August 14 of a year (month index 7). -/
def aug14 (y : Int) : MDate := ⟨y, 7, 14⟩

/-- The season year containing a date: the date's year for the second
half (on or after August 15), the preceding year for the first half. -/
def seasonOf (d : MDate) : Int :=
  if isFirstHalf d then d.year - 1 else d.year

/-! ## Competition headers and merge/dedup
(ffds.js lines 141–167 and 242–249) -/

/-- `moment.format('YYYYMMDD')` (zero-padded). -/
def pad2 (n : Nat) : String :=
  if n < 10 then "0" ++ toString n else toString n

def formatYYYYMMDD (d : MDate) : String :=
  toString d.year ++ pad2 (d.month + 1) ++ pad2 d.day

/-- underscore.string `slugify`, modelled from the library's documented
behaviour (lower-case, accents stripped, non-alphanumeric runs turned
into dashes).  Only determinism matters for the id computation: equal
places yield equal slugs. -/
def slugChar (c : Char) : Char :=
  let b := jsToLowerChar (removeAccentChar c)
  if (97 ≤ b.toNat ∧ b.toNat ≤ 122) ∨ (48 ≤ b.toNat ∧ b.toNat ≤ 57) then b else '-'

def slugify (s : String) : String :=
  String.mk (s.data.map slugChar)

/-- The `md5` content hash of the id computation (ffds.js line 164) is
an external library; the merge logic only ever compares ids for
equality, so the hash is modelled as the identity encoding of its
input. -/
def md5 (s : String) : String := s

/-- The competition id (ffds.js line 164):
`md5(slugify(place) + date.format('YYYYMMDD'))`. -/
def competitionId (place : String) (date : MDate) : String :=
  md5 (slugify place ++ formatYYYYMMDD date)

/-- A contest of a competition: cleaned title and the ranking mapping
(association list from normalized couple name to the parsed rank). -/
structure Contest where
  title : String
  results : List (String × Option Int)
deriving DecidableEq

/-- Modelled from the spec: the `Competition` entity
(`lib/models/competition`, not under `src/`): scalar fields `id`,
`place`, `date`, `provider`, the ordered set `dataUrls` of detail-page
references, and the lazily-populated `contests`. -/
structure Competition where
  id : String
  place : String
  date : MDate
  provider : String
  dataUrls : List String
  contests : List Contest
deriving DecidableEq

/-- A `Competition` as `extractHeader` builds one (ffds.js lines
151–166): the detail url is the single initial entry of `dataUrls` and
the id is `competitionId place date`. -/
def mkCandidate (place : String) (date : MDate) (url : String) : Competition :=
  { id := competitionId place date
    place := place
    date := date
    provider := "ffds"
    dataUrls := [url]
    contests := [] }

/-- First-occurrence deduplication: keeps the first occurrence of each
element, in order.  The `Nat` argument is fuel (any value at least the
list length gives the intended result); it keeps the recursion
structural so the function evaluates in the kernel. -/
def firstDedupF {α : Type} [DecidableEq α] : Nat → List α → List α
  | _, [] => []
  | 0, _ :: _ => []
  | Nat.succ n, a :: l => a :: firstDedupF n (l.filter (fun b => b ≠ a))

def firstDedup {α : Type} [DecidableEq α] (l : List α) : List α :=
  firstDedupF l.length l

/-- The merged competition of one id-group: the first member's scalar
fields with the union of all members' dataUrls, preserving first-seen
order without duplicates. -/
def mergedOf (first : Competition) (others : List Competition) : Competition :=
  { first with dataUrls := firstDedup ((first :: others).flatMap Competition.dataUrls) }

/-- Grouping pass of the merge: the first list entry heads its id
group; later members of the group are merged into it and removed.  The
`Nat` argument is fuel (any value at least the list length gives the
intended result), keeping the recursion structural. -/
def mergeAuxF : Nat → List Competition → List Competition
  | _, [] => []
  | 0, _ :: _ => []
  | Nat.succ n, c :: rest =>
    mergedOf c (rest.filter (fun d => d.id == c.id)) ::
      mergeAuxF n (rest.filter (fun d => d.id != c.id))

/-- Modelled from the spec: the repository utility `mergeCompetitions`
(`lib/utils`, not under `src/`), as used by `listResults` (ffds.js
lines 245–248): drop missing entries, group the rest by `id`, emit one
competition per distinct id carrying the first member's scalar fields
and the first-seen-ordered union of the group's `dataUrls`, output
ordered by first occurrence. -/
def mergeCompetitions (cands : List (Option Competition)) : List Competition :=
  mergeAuxF (cands.filterMap id).length (cands.filterMap id)

/-! ## Ranking extraction (ffds.js lines 187–203) -/

/-- JS `parseInt` on a table cell, restricted to the decimal forms the
ranking pages contain: optional whitespace, optional sign, leading
digits; `none` models `NaN`. -/
def jsParseInt (s : String) : Option Int :=
  let l := s.data.dropWhile isSpaceJs
  let sign : Int := if l.head? = some '-' then -1 else 1
  let l := if l.head? = some '-' ∨ l.head? = some '+' then l.tail else l
  let digits := l.takeWhile (fun c => 48 ≤ c.toNat && c.toNat ≤ 57)
  if digits = [] then none
  else some (sign * (digits.foldl (fun n c => n * 10 + (c.toNat - 48)) 0 : Nat))

/-- One result row of a ranked heat: the raw HTML of the couple-name
cell (`td:nth-child(3)`, `none` when the cell is missing and cheerio's
`.html()` returns `null`) and the text of the rank cell
(`td:nth-child(1)`). -/
structure RankRow where
  nameCell : Option String
  rankCell : String
deriving DecidableEq

/-- The body of the row loop of `extractRanking` (ffds.js lines
193–201): normalize the couple name, and record the parsed rank only
when the name is not yet a key of the accumulated mapping (`!(names in
results)`); a missing name cell makes `cleanNames` throw, which aborts
the extraction. -/
def extractRowsAux : List (String × Option Int) → List RankRow →
    Except String (List (String × Option Int))
  | acc, [] => Except.ok acc
  | acc, row :: rest =>
    match row.nameCell with
    | none => Except.error "failed to parse ranking"
    | some html =>
      let names := cleanNames html
      extractRowsAux
        (if acc.any (fun e => e.1 == names) then acc
         else acc ++ [(names, jsParseInt row.rankCell)]) rest

/-- The ranking accumulation of `extractRanking` over the heats in
document order (the first `.portlet` section is the final heat), each
heat's rows in order. -/
def rankingResults (heats : List (List RankRow)) :
    Except String (List (String × Option Int)) :=
  extractRowsAux [] (heats.flatMap id)

/-- The (name, rank) entries of the traversal, in processing order,
for rows whose name cell is present. -/
def rankingEntries (heats : List (List RankRow)) : List (String × Option Int) :=
  (heats.flatMap id).filterMap
    (fun row => row.nameCell.map (fun html => (cleanNames html, jsParseInt row.rankCell)))

/-! ## Serial task runner (used by `getDetails`, ffds.js lines 255–284) -/

/-- Modelled from the spec: the repository utility `runSerially`
(`lib/utils`, not under `src/`, §4.6 of the spec): execute deferred
operations strictly one at a time in list order; on the first failure
stop scheduling further operations and propagate that failure,
discarding the completed results; when all succeed return their
results in input order.  Each operation is modelled by its outcome
(`Except`); the second component returned is the trace of the
(0-based) indices of the operations actually invoked, in invocation
order. -/
def runSeriallyAux {ε α : Type} : Nat → List (Except ε α) →
    Except ε (List α) × List Nat
  | _, [] => (Except.ok [], [])
  | i, op :: rest =>
    match op with
    | Except.error e => (Except.error e, [i])
    | Except.ok a =>
      let r := runSeriallyAux (i + 1) rest
      (r.1.map (fun l => a :: l), i :: r.2)

/-- Modelled from the spec: see `runSeriallyAux`. -/
def runSerially {ε α : Type} (ops : List (Except ε α)) :
    Except ε (List α) × List Nat :=
  runSeriallyAux 0 ops

/-! ## `listResults` endpoint selection (ffds.js line 236) -/

/-- The url built by `listResults` (ffds.js line 236):
`${opts.url}/${opts.list}` plus `?Archives` when the requested year's
season is not the season containing now
(`isWithinSeason(year, moment())`). -/
def listResultsUrl (optsUrl optsList : String) (year : Int) (now : MDate) : String :=
  optsUrl ++ "/" ++ optsList ++ (if isWithinSeason year now then "" else "?Archives")

/-! ## `getGroupCouples` argument validation (ffds.js lines 321–349) -/

/-- A `{id, name}` club directory entry. -/
structure Club where
  id : String
  name : String
deriving DecidableEq

inductive GGCError where
  | validation
  | notFound (group : String)
deriving DecidableEq

/-- `Joi.string().empty().required().label('group parameter')` applied
to the `group` argument: a missing value fails `required`, and the
empty string fails the non-empty default of `Joi.string()`. -/
def validateGroup : Option String → Option GGCError
  | none => some GGCError.validation
  | some s => if s = "" then some GGCError.validation else none

/-- The club lookup of `getGroupCouples` (ffds.js line 330):
`this.clubs.find(club => club.name.toLowerCase() === group.trim().toLowerCase())`. -/
def searchClubByName (clubs : List Club) (group : String) : Option Club :=
  clubs.find? (fun club => jsToLower club.name == jsToLower (trimJs group))

/-- The couples url (ffds.js line 338):
`sprintf(opts.url + "/" + opts.couples, club.id)`, with `sprintf`'s
`%s` substitution embedded as first-occurrence replacement. -/
def couplesUrlOf (optsUrl couplesPath : String) (clubId : String) : String :=
  String.mk (replaceFirst ("%s").data clubId.data (optsUrl ++ "/" ++ couplesPath).data)

deriving instance DecidableEq for Except

/-- Outcome of a `getGroupCouples` call: the settled result, the urls
fetched (in request order), and the club cache after the call. -/
structure GGCOutcome where
  result : Except GGCError (List String)
  fetched : List String
  cacheAfter : Option (List Club)
deriving DecidableEq

/-- The search step of `getGroupCouples` (ffds.js lines 328–341) run
against a club list: resolve the group name, fail with "no group found"
when absent, otherwise fetch the club's couples roster.  The fetch and
`extractNames` parse of the roster page are abstracted by `couplesOf`,
mapping the fetched url to the extracted name list. -/
def ggcSearch (optsUrl couplesPath : String) (couplesOf : String → List String)
    (clubs : List Club) (group : String) : Except GGCError (List String) × List String :=
  match searchClubByName clubs group with
  | none => (Except.error (GGCError.notFound group), [])
  | some club =>
    let url := couplesUrlOf optsUrl couplesPath club.id
    (Except.ok (couplesOf url), [url])

/-- `getGroupCouples` (ffds.js lines 321–349): validate the argument
first and reject before any request or cache write; then search the
cached clubs, populating the cache via the club listing page
(`searchGroups('')`) when it is empty.  `siteClubs` abstracts the club
entries extracted from the fetched listing page. -/
def getGroupCouples (optsUrl clubsPath couplesPath : String)
    (cache : Option (List Club)) (siteClubs : List Club)
    (couplesOf : String → List String) (group : Option String) : GGCOutcome :=
  match validateGroup group with
  | some e => ⟨Except.error e, [], cache⟩
  | none =>
    let g := group.getD ""
    match cache with
    | some clubs =>
      let r := ggcSearch optsUrl couplesPath couplesOf clubs g
      ⟨r.1, r.2, some clubs⟩
    | none =>
      let clubsUrl := optsUrl ++ "/" ++ clubsPath
      let r := ggcSearch optsUrl couplesPath couplesOf siteClubs g
      ⟨r.1, clubsUrl :: r.2, some siteClubs⟩

/-! ## The display-name convention and its expected reconstruction

The source site renders a dancer as `SURNAME Forename`: an all-uppercase
surname (one or more uppercase words joined by single separators),
a space, then a mixed-case forename.  The following definitions state
that convention and the title-cased pair that `cleanNames` should
recover from it; they follow the spec's words and are compared against
the source-translated `cleanNames`. -/

/-- The last element of a scanned segment, or the previous character
when the segment is empty (used to thread the "previous character" of
the `cleanNames` loop across list appends). -/
def lastOr (xs : List Char) (prev : Option Char) : Option Char :=
  match xs.getLast? with
  | some c => some c
  | none => prev

/-- An ASCII uppercase letter. -/
def AsciiUpper (c : Char) : Prop := 65 ≤ c.toNat ∧ c.toNat ≤ 90

/-- ASCII lowercase letters. -/
def LowerChars (l : List Char) : Prop := ∀ c ∈ l, 97 ≤ c.toNat ∧ c.toNat ≤ 122

/-- A surname word: non-empty, all ASCII uppercase. -/
def UpperWord (w : List Char) : Prop := w ≠ [] ∧ ∀ c ∈ w, AsciiUpper c

/-- A separator inside a multi-word or hyphenated surname. -/
def SepChar (c : Char) : Prop := c = ' ' ∨ c = '-'

/-- A surname: a first uppercase word followed by (separator, word)
pairs. -/
def Surname (w0 : List Char) (ws : List (Char × List Char)) : Prop :=
  UpperWord w0 ∧ ∀ p ∈ ws, SepChar p.1 ∧ UpperWord p.2

/-- The characters of a surname in display form. -/
def surChars (w0 : List Char) (ws : List (Char × List Char)) : List Char :=
  w0 ++ ws.flatMap (fun p => p.1 :: p.2)

/-- Title-casing of one all-uppercase word: first letter kept, rest
lower-cased. -/
def titlecaseWord : List Char → List Char
  | [] => []
  | c :: t => c :: t.map jsToLowerChar

/-- The expected title-cased surname: each word title-cased, separators
preserved. -/
def titlecaseSur (w0 : List Char) (ws : List (Char × List Char)) : List Char :=
  titlecaseWord w0 ++ ws.flatMap (fun p => p.1 :: titlecaseWord p.2)

instance (c : Char) : Decidable (AsciiUpper c) :=
  decidable_of_iff (65 ≤ c.toNat ∧ c.toNat ≤ 90) Iff.rfl

instance (c : Char) : Decidable (SepChar c) :=
  decidable_of_iff (c = ' ' ∨ c = '-') Iff.rfl

instance (l : List Char) : Decidable (LowerChars l) :=
  decidable_of_iff (∀ c ∈ l, 97 ≤ c.toNat ∧ c.toNat ≤ 122) Iff.rfl

instance (w : List Char) : Decidable (UpperWord w) :=
  decidable_of_iff (w ≠ [] ∧ ∀ c ∈ w, AsciiUpper c) Iff.rfl

instance (w0 : List Char) (ws : List (Char × List Char)) : Decidable (Surname w0 ws) :=
  decidable_of_iff (UpperWord w0 ∧ ∀ p ∈ ws, SepChar p.1 ∧ UpperWord p.2) Iff.rfl

/-- One dancer in the source display convention:
`SURNAME Forename` with forename `u :: ls`. -/
def renderDancer (w0 : List Char) (ws : List (Char × List Char))
    (u : Char) (ls : List Char) : List Char :=
  surChars w0 ws ++ ' ' :: u :: ls

/-! ## Helper lemmas -/

theorem charToNat_ofNat (n : Nat) (h : n < 55296) : (Char.ofNat n).toNat = n := by
  have hv : Nat.isValidChar n := Or.inl h
  simp [Char.ofNat, hv, Char.ofNatAux, Char.toNat]
  rfl

/-! ## C1: season membership -/

/-- C1: For every year `y` and date `d`, `isWithinSeason(y, d)` is true
iff `d` lies between August 15 of year `y` and August 14 of year `y+1`
inclusive; in particular at the four boundary dates around season 2023. -/
theorem isWithinSeason_spec :
    (∀ (y : Int) (d : MDate),
      isWithinSeason y d = true ↔ (dateLe (aug15 y) d ∧ dateLe d (aug14 (y + 1)))) ∧
    isWithinSeason 2023 ⟨2023, 7, 14⟩ = false ∧
    isWithinSeason 2023 ⟨2023, 7, 15⟩ = true ∧
    isWithinSeason 2023 ⟨2024, 7, 14⟩ = true ∧
    isWithinSeason 2023 ⟨2024, 7, 15⟩ = false := by
  refine ⟨?_, by decide, by decide, by decide, by decide⟩
  intro y d
  rcases d with ⟨dy, dm, dd⟩
  simp [isWithinSeason, isFirstHalf, dateLe, aug15, aug14]
  constructor
  · rintro (⟨hy, h⟩ | ⟨hy, h⟩) <;> omega
  · rintro ⟨h1, h2⟩
    omega

/-! ## C7: listing endpoint selection -/

theorem isWithinSeason_iff_seasonOf (year : Int) (now : MDate) :
    isWithinSeason year now = true ↔ seasonOf now = year := by
  simp only [isWithinSeason, seasonOf, Bool.or_eq_true, Bool.and_eq_true,
    Bool.not_eq_true', beq_iff_eq]
  by_cases h : isFirstHalf now = true <;> simp [h] <;> omega

/-- C7: `listResults(year)` fetches the non-archive listing endpoint
exactly when the season containing "now" is season `year`, and the
archive variant (`?Archives` appended) otherwise. -/
theorem listResultsUrl_spec :
    ∀ (u l : String) (year : Int) (now : MDate),
      (seasonOf now = year → listResultsUrl u l year now = u ++ "/" ++ l) ∧
      (seasonOf now ≠ year →
        listResultsUrl u l year now = u ++ "/" ++ l ++ "?Archives") ∧
      u ++ "/" ++ l ++ "?Archives" ≠ u ++ "/" ++ l := by
  intro u l year now
  refine ⟨?_, ?_, ?_⟩
  · intro h
    rw [listResultsUrl, if_pos ((isWithinSeason_iff_seasonOf year now).mpr h)]
    simp
  · intro h
    rw [listResultsUrl, if_neg]
    intro hw
    exact h ((isWithinSeason_iff_seasonOf year now).mp hw)
  · intro h
    have h2 := congrArg String.length h
    simp [String.length_append] at h2
    exact absurd h2 (by decide)

/-- Witness for C7 at concrete inputs: October 1 2022 lies in season
2022, so `listResults(2022)` uses the plain listing url and
`listResults(2023)` the archive one. -/
theorem listResultsUrl_spec_witness :
    listResultsUrl ("http://site.fr") ("compets") 2022 ⟨2022, 9, 1⟩ =
      ("http://site.fr") ++ "/" ++ ("compets") ∧
    listResultsUrl ("http://site.fr") ("compets") 2023 ⟨2022, 9, 1⟩ =
      ("http://site.fr") ++ "/" ++ ("compets") ++ "?Archives" :=
  ⟨(listResultsUrl_spec ("http://site.fr") ("compets") 2022 ⟨2022, 9, 1⟩).1 (by decide),
   (listResultsUrl_spec ("http://site.fr") ("compets") 2023 ⟨2022, 9, 1⟩).2.1 (by decide)⟩

/-! ## C4: the unknown-couple sentinel -/

/-- C4: any input containing (case-insensitively) the phrase
`couple inconnu` makes `cleanNames` return the fixed sentinel string
verbatim, regardless of any other content. -/
theorem cleanNames_sentinel :
    ∀ names : String,
      containsSub sentinel.data (jsToLower names).data = true →
      cleanNames names = sentinel := by
  intro names h
  rw [cleanNames, if_pos h]

/-- Witness for C4: an input that contains the phrase (in mixed case)
among other content. -/
theorem cleanNames_sentinel_witness :
    containsSub sentinel.data (jsToLower ("DUPONT Jean<br>Couple Inconnu !")).data = true ∧
    cleanNames ("DUPONT Jean<br>Couple Inconnu !") = sentinel :=
  ⟨by decide, cleanNames_sentinel ("DUPONT Jean<br>Couple Inconnu !") (by decide)⟩

/-! ## C10: `getGroupCouples` argument validation -/

/-- C10: a missing or empty `group` argument makes `getGroupCouples`
reject with a validation error before any fetch or cache write: no url
is requested and the cache is untouched. -/
theorem getGroupCouples_validation :
    ∀ (optsUrl clubsPath couplesPath : String) (cache : Option (List Club))
      (siteClubs : List Club) (couplesOf : String → List String)
      (group : Option String),
      group = none ∨ group = some "" →
      getGroupCouples optsUrl clubsPath couplesPath cache siteClubs couplesOf group =
        ⟨Except.error GGCError.validation, [], cache⟩ := by
  intro optsUrl clubsPath couplesPath cache siteClubs couplesOf group h
  rcases h with h | h <;> subst h <;> rfl

/-- Witness for C10: both rejected shapes of the argument at concrete
provider parameters. -/
theorem getGroupCouples_validation_witness :
    getGroupCouples ("http://site.fr") ("clubs") ("couples/%s") none
        [⟨"42", "My Club"⟩] (fun _ => []) none =
      ⟨Except.error GGCError.validation, [], none⟩ ∧
    getGroupCouples ("http://site.fr") ("clubs") ("couples/%s")
        (some [⟨"42", "My Club"⟩]) [] (fun _ => []) (some "") =
      ⟨Except.error GGCError.validation, [], some [⟨"42", "My Club"⟩]⟩ :=
  ⟨getGroupCouples_validation ("http://site.fr") ("clubs") ("couples/%s") none
      [⟨"42", "My Club"⟩] (fun _ => []) none (Or.inl rfl),
   getGroupCouples_validation ("http://site.fr") ("clubs") ("couples/%s")
      (some [⟨"42", "My Club"⟩]) [] (fun _ => []) (some "") (Or.inr rfl)⟩

/-! ## C8: the contest title cleaner -/

theorem replaceFirst_of_not_contains (pat rep : List Char) :
    ∀ l : List Char, containsSub pat l = false → replaceFirst pat rep l = l := by
  intro l
  induction l with
  | nil =>
    intro h
    rw [containsSub] at h
    rw [replaceFirst, if_neg]
    simp [h]
  | cons c t ih =>
    intro h
    rw [containsSub, Bool.or_eq_false_iff] at h
    rw [replaceFirst, if_neg (by simp [h.1]), ih h.2]

theorem dropWhile_dropWhile (p : Char → Bool) :
    ∀ l : List Char, List.dropWhile p (List.dropWhile p l) = List.dropWhile p l := by
  intro l
  induction l with
  | nil => rfl
  | cons c t ih =>
    by_cases hc : p c = true
    · rw [List.dropWhile_cons, if_pos hc, ih]
    · rw [List.dropWhile_cons, if_neg hc, List.dropWhile_cons, if_neg hc]

theorem dropWhile_fixed_head (p : Char → Bool) (m : List Char)
    (hm : List.dropWhile p m = m) :
    List.dropWhile p ((m.reverse.dropWhile p).reverse) =
      (m.reverse.dropWhile p).reverse := by
  cases m with
  | nil => rfl
  | cons c t =>
    have hc : p c = false := by
      by_contra hne
      rw [Bool.not_eq_false] at hne
      rw [List.dropWhile_cons, if_pos hne] at hm
      have := (@List.dropWhile_sublist Char t p).length_le
      rw [hm] at this
      simp at this
    have hsplit : ∃ ys : List Char,
        List.dropWhile p (c :: t).reverse = ys ++ [c] := by
      rw [List.reverse_cons, List.dropWhile_append]
      by_cases he : (List.dropWhile p t.reverse).isEmpty = true
      · refine ⟨[], ?_⟩
        rw [if_pos he, List.dropWhile_cons, if_neg (by simp [hc])]
        rfl
      · exact ⟨List.dropWhile p t.reverse, by rw [if_neg he]⟩
    obtain ⟨ys, hy⟩ := hsplit
    rw [hy]
    simp [List.reverse_append, List.dropWhile_cons, hc]

theorem trimList_idem (l : List Char) : trimList (trimList l) = trimList l := by
  have hm := dropWhile_dropWhile isSpaceJs l
  rw [trimList, trimList, dropWhile_fixed_head isSpaceJs (l.dropWhile isSpaceJs) hm,
    List.reverse_reverse, dropWhile_dropWhile]

/-- C8 counterexample: `cleanContest` removes only the first occurrence
of each boilerplate label, so a title holding the point-based label
twice cleans to the label once, and cleaning again reaches the empty
string: the cleaner is not idempotent on that input. -/
theorem cleanContest_not_idempotent :
    cleanContest (cleanContest ("Compétition à points Compétition à points")) ≠
      cleanContest ("Compétition à points Compétition à points") := by
  decide

/-- C8 (amended): `cleanContest` removes the first occurrence of each
of the two boilerplate labels and trims; it is idempotent on every
input whose cleaned form contains no further occurrence of either
label (in particular on titles holding at most one occurrence of
each). -/
theorem cleanContest_idem :
    ∀ s : String,
      containsSub pointsLabel.data (cleanContest s).data = false →
      containsSub noPointsLabel.data (cleanContest s).data = false →
      cleanContest (cleanContest s) = cleanContest s := by
  intro s hA hB
  show trimJs (String.mk (replaceFirst noPointsLabel.data []
      (replaceFirst pointsLabel.data [] (cleanContest s).data))) = cleanContest s
  rw [replaceFirst_of_not_contains pointsLabel.data [] (cleanContest s).data hA,
    replaceFirst_of_not_contains noPointsLabel.data [] (cleanContest s).data hB]
  show trimJs (trimJs (String.mk (replaceFirst noPointsLabel.data []
      (replaceFirst pointsLabel.data [] s.data)))) = cleanContest s
  exact congrArg String.mk (trimList_idem _)

/-- Witness for C8: a realistic once-labelled title. -/
theorem cleanContest_idem_witness :
    containsSub pointsLabel.data (cleanContest ("  Compétition à points Juvéniles II Latines  ")).data = false ∧
    containsSub noPointsLabel.data (cleanContest ("  Compétition à points Juvéniles II Latines  ")).data = false ∧
    cleanContest (cleanContest ("  Compétition à points Juvéniles II Latines  ")) =
      cleanContest ("  Compétition à points Juvéniles II Latines  ") :=
  ⟨by decide, by decide,
   cleanContest_idem ("  Compétition à points Juvéniles II Latines  ") (by decide) (by decide)⟩

/-! ## C2: competition merge/dedup -/

theorem firstDedupF_subset {α : Type} [DecidableEq α] :
    ∀ (n : Nat) (l : List α) (x : α), x ∈ firstDedupF n l → x ∈ l := by
  intro n
  induction n with
  | zero =>
    intro l x hx
    cases l with
    | nil => exact absurd hx (by simp [firstDedupF])
    | cons a t => exact absurd hx (by simp [firstDedupF])
  | succ n ih =>
    intro l x hx
    cases l with
    | nil => exact absurd hx (by simp [firstDedupF])
    | cons a t =>
      rw [firstDedupF] at hx
      rcases List.mem_cons.mp hx with h | h
      · exact h ▸ List.mem_cons_self a t
      · exact List.mem_cons_of_mem a (List.mem_of_mem_filter (ih _ x h))

theorem firstDedupF_nodup {α : Type} [DecidableEq α] :
    ∀ (n : Nat) (l : List α), (firstDedupF n l).Nodup := by
  intro n
  induction n with
  | zero =>
    intro l
    cases l with
    | nil => simp [firstDedupF]
    | cons a t => simp [firstDedupF]
  | succ n ih =>
    intro l
    cases l with
    | nil => simp [firstDedupF]
    | cons a t =>
      rw [firstDedupF]
      refine List.nodup_cons.mpr ⟨?_, ih _⟩
      intro hmem
      have := firstDedupF_subset n _ a hmem
      simp at this

theorem filter_map_id_comm (c : Competition) :
    ∀ l : List Competition,
      (l.filter (fun d => d.id != c.id)).map Competition.id =
        (l.map Competition.id).filter (fun b => b ≠ c.id) := by
  intro l
  induction l with
  | nil => rfl
  | cons a t ih =>
    by_cases h : a.id = c.id
    · rw [List.filter_cons, List.map_cons, List.filter_cons]
      simp [h, ih]
    · rw [List.filter_cons, List.map_cons, List.filter_cons]
      simp [h, ih]

theorem mergeAuxF_map_id :
    ∀ (n : Nat) (l : List Competition), l.length ≤ n →
      (mergeAuxF n l).map Competition.id =
        firstDedupF n (l.map Competition.id) := by
  intro n
  induction n with
  | zero =>
    intro l hl
    rw [List.length_eq_zero.mp (Nat.le_zero.mp hl)]
    rfl
  | succ n ih =>
    intro l hl
    cases l with
    | nil => rfl
    | cons c rest =>
      rw [mergeAuxF, List.map_cons, List.map_cons, firstDedupF]
      have hlen : (rest.filter (fun d => d.id != c.id)).length ≤ n := by
        have := List.length_filter_le (fun d => d.id != c.id) rest
        simp at hl
        omega
      rw [ih _ hlen, filter_map_id_comm c rest]
      rfl

theorem mergeAuxF_mem :
    ∀ (n : Nat) (l : List Competition) (x : String) (g0 : Competition)
      (gs : List Competition),
      l.length ≤ n →
      l.filter (fun d => d.id == x) = g0 :: gs →
      mergedOf g0 gs ∈ mergeAuxF n l := by
  intro n
  induction n with
  | zero =>
    intro l x g0 gs hl hf
    rw [List.length_eq_zero.mp (Nat.le_zero.mp hl)] at hf
    exact absurd hf (by simp)
  | succ n ih =>
    intro l x g0 gs hl hf
    cases l with
    | nil => exact absurd hf (by simp)
    | cons c rest =>
      by_cases hx : c.id = x
      · subst hx
        rw [List.filter_cons, if_pos (by simp)] at hf
        injection hf with h1 h2
        rw [mergeAuxF, ← h1, ← h2]
        exact List.mem_cons_self _ _
      · rw [List.filter_cons, if_neg (by simp [hx])] at hf
        rw [mergeAuxF]
        apply List.mem_cons_of_mem
        apply ih (rest.filter (fun d => d.id != c.id)) x g0 gs
        · have := List.length_filter_le (fun d => d.id != c.id) rest
          simp at hl
          omega
        · rw [List.filter_filter]
          rw [List.filter_congr (fun d _ => ?_)]
          · exact hf
          · by_cases hdx : d.id = x
            · have : x ≠ c.id := fun he => hx he.symm
              simp [hdx, this]
            · simp [hdx]

/-- C2: the merge/dedup step drops missing entries and produces exactly
one Competition per distinct id — the output ids are the distinct input
ids in first-occurrence order — where the competition emitted for an id
group carries the first member's scalar fields and the first-seen
ordered, duplicate-free union of the group's `dataUrls`; in particular
two candidates with equal place and date but different detail urls
merge into one record carrying both urls, in either input order. -/
theorem mergeCompetitions_spec :
    (∀ cands : List (Option Competition),
      (mergeCompetitions cands).map Competition.id =
        firstDedup ((cands.filterMap id).map Competition.id) ∧
      ((mergeCompetitions cands).map Competition.id).Nodup) ∧
    (∀ (cands : List (Option Competition)) (x : String) (g0 : Competition)
        (gs : List Competition),
      (cands.filterMap id).filter (fun d => d.id == x) = g0 :: gs →
      mergedOf g0 gs ∈ mergeCompetitions cands) ∧
    (mergeCompetitions [some (mkCandidate ("Paris") ⟨2023, 10, 5⟩ ("u1")),
        some (mkCandidate ("Paris") ⟨2023, 10, 5⟩ ("u2"))] =
      [{ mkCandidate ("Paris") ⟨2023, 10, 5⟩ ("u1") with dataUrls := ["u1", "u2"] }] ∧
     mergeCompetitions [some (mkCandidate ("Paris") ⟨2023, 10, 5⟩ ("u2")),
        some (mkCandidate ("Paris") ⟨2023, 10, 5⟩ ("u1"))] =
      [{ mkCandidate ("Paris") ⟨2023, 10, 5⟩ ("u2") with dataUrls := ["u2", "u1"] }]) := by
  refine ⟨?_, ?_, by decide, by decide⟩
  · intro cands
    constructor
    · rw [mergeCompetitions, firstDedup,
        mergeAuxF_map_id (cands.filterMap id).length (cands.filterMap id) (Nat.le_refl _)]
      rw [List.length_map]
    · rw [mergeCompetitions,
        mergeAuxF_map_id (cands.filterMap id).length (cands.filterMap id) (Nat.le_refl _)]
      exact firstDedupF_nodup _ _
  · intro cands x g0 gs hf
    exact mergeAuxF_mem (cands.filterMap id).length (cands.filterMap id) x g0 gs
      (Nat.le_refl _) hf

/-- Witness for C2: the two equal-place, equal-date candidates form one
id group whose merged record is in the output. -/
theorem mergeCompetitions_spec_witness :
    mergedOf (mkCandidate ("Paris") ⟨2023, 10, 5⟩ ("u1"))
        [mkCandidate ("Paris") ⟨2023, 10, 5⟩ ("u2")] ∈
      mergeCompetitions [some (mkCandidate ("Paris") ⟨2023, 10, 5⟩ ("u1")),
        some (mkCandidate ("Paris") ⟨2023, 10, 5⟩ ("u2"))] :=
  mergeCompetitions_spec.2.1
    [some (mkCandidate ("Paris") ⟨2023, 10, 5⟩ ("u1")),
     some (mkCandidate ("Paris") ⟨2023, 10, 5⟩ ("u2"))]
    (mkCandidate ("Paris") ⟨2023, 10, 5⟩ ("u1")).id
    (mkCandidate ("Paris") ⟨2023, 10, 5⟩ ("u1"))
    [mkCandidate ("Paris") ⟨2023, 10, 5⟩ ("u2")]
    (by decide)

/-! ## C3: the display-name round trip — character facts -/

theorem jsToLowerChar_upper (c : Char) (h : AsciiUpper c) :
    (jsToLowerChar c).toNat = c.toNat + 32 := by
  obtain ⟨h1, h2⟩ := h
  rw [jsToLowerChar, if_pos ⟨h1, h2⟩]
  exact charToNat_ofNat (c.toNat + 32) (by omega)

theorem jsToUpperChar_lower_roundtrip (c : Char) (h : AsciiUpper c) :
    jsToUpperChar (jsToLowerChar c) = c := by
  have hl := jsToLowerChar_upper c h
  obtain ⟨h1, h2⟩ := h
  rw [jsToUpperChar, if_pos (by omega)]
  have : (jsToLowerChar c).toNat - 32 = c.toNat := by omega
  rw [this, Char.ofNat_toNat]

theorem jsToLowerChar_id_low (c : Char) (h : c.toNat < 65) : jsToLowerChar c = c := by
  rw [jsToLowerChar, if_neg (by omega), if_neg (by omega)]

theorem jsToLowerChar_id_lower (c : Char) (h1 : 97 ≤ c.toNat) (h2 : c.toNat ≤ 122) :
    jsToLowerChar c = c := by
  rw [jsToLowerChar, if_neg (by omega), if_neg (by omega)]

theorem isSpaceJs_false_of_letter (c : Char) (h1 : 65 ≤ c.toNat) (h2 : c.toNat ≤ 122) :
    isSpaceJs c = false := by
  rw [isSpaceJs]
  have hne : ∀ m : Nat, m < 65 ∨ 122 < m → c.toNat ≠ m := by omega
  simp only [Bool.or_eq_false_iff, beq_eq_false_iff_ne]
  refine ⟨⟨⟨⟨⟨⟨?_, ?_⟩, ?_⟩, ?_⟩, ?_⟩, ?_⟩, ?_⟩ <;>
    first
      | exact fun he => absurd (congrArg Char.toNat he) (by simpa using hne _ (by omega))
      | simpa using hne _ (by omega)

theorem isUpperCode_of_upper (c : Char) (h : AsciiUpper c) : isUpperCode c = true := by
  obtain ⟨h1, h2⟩ := h
  simp [isUpperCode]
  omega

theorem isUpperCode_false_of_lower (c : Char) (h1 : 97 ≤ c.toNat) (h2 : c.toNat ≤ 122) :
    isUpperCode c = false := by
  simp [isUpperCode]
  omega

theorem isSepCode_false_of_lower (c : Char) (h1 : 97 ≤ c.toNat) (h2 : c.toNat ≤ 122) :
    isSepCode c = false := by
  have hne : ∀ m : Nat, m < 97 → c.toNat ≠ m := by omega
  simp [isSepCode]
  refine ⟨⟨?_, ?_⟩, ?_⟩ <;> simpa using hne _ (by omega)

theorem isSepCode_of_sep (c : Char) (h : SepChar c) : isSepCode c = true := by
  rcases h with h | h <;> subst h <;> decide

theorem isUpperCode_false_of_sep (c : Char) (h : SepChar c) : isUpperCode c = false := by
  rcases h with h | h <;> subst h <;> decide

theorem removeAccentChar_id (c : Char) (h : c.toNat < 192) : removeAccentChar c = c := by
  simp only [removeAccentChar]
  repeat rw [if_neg (by omega)]

theorem removeAccents_id (l : List Char) (h : ∀ c ∈ l, c.toNat < 192) :
    l.map removeAccentChar = l := by
  induction l with
  | nil => rfl
  | cons c t ih =>
    rw [List.map_cons, removeAccentChar_id c (h c (List.mem_cons_self c t)),
      ih (fun d hd => h d (List.mem_cons_of_mem c hd))]

/-! ## C3: scanner lemmas -/

theorem lastOr_cons (c : Char) (xs : List Char) (prev : Option Char) :
    lastOr (c :: xs) prev = lastOr xs (some c) := by
  cases xs with
  | nil => rfl
  | cons d t =>
    rw [lastOr, lastOr, List.getLast?_cons_cons]
    cases h : (d :: t).getLast? with
    | none => exact absurd h (by simp)
    | some x => rfl

theorem lastOr_append (xs ys : List Char) (prev : Option Char) :
    lastOr (xs ++ ys) prev = lastOr ys (lastOr xs prev) := by
  induction xs generalizing prev with
  | nil => rfl
  | cons c t ih => rw [List.cons_append, lastOr_cons, ih, lastOr_cons]

theorem scan_append (xs : List Char) :
    ∀ (ys : List Char) (prev : Option Char) (st : ScanSt),
      scanChars prev st (xs ++ ys) =
        scanChars (lastOr xs prev) (scanChars prev st xs) ys := by
  induction xs with
  | nil => intro ys prev st; rfl
  | cons c t ih =>
    intro ys prev st
    rw [List.cons_append, scanChars, scanChars, ih ys (some c) (scanStep prev c st),
      lastOr_cons]

theorem scan_upper_word (w : List Char) (hw : ∀ c ∈ w, AsciiUpper c) :
    ∀ (prev : Option Char) (l f : List Char) (b : Bool),
      scanChars prev ⟨l, f, b⟩ w = ⟨l ++ w, f, if w.isEmpty then b else true⟩ := by
  induction w with
  | nil => intro prev l f b; simp [scanChars]
  | cons c t ih =>
    intro prev l f b
    rw [scanChars, scanStep, if_pos (isUpperCode_of_upper c (hw c (List.mem_cons_self c t)))]
    rw [ih (fun d hd => hw d (List.mem_cons_of_mem c hd)) (some c) (l ++ [c]) f true]
    simp

theorem scan_lower_run (xs : List Char) (hx : LowerChars xs) :
    ∀ (prev : Option Char) (l f : List Char),
      scanChars prev ⟨l, f, false⟩ xs = ⟨l, f ++ xs, false⟩ := by
  induction xs with
  | nil => intro prev l f; simp [scanChars]
  | cons c t ih =>
    intro prev l f
    obtain ⟨h1, h2⟩ := hx c (List.mem_cons_self c t)
    rw [scanChars, scanStep, if_neg (by simp [isUpperCode_false_of_lower c h1 h2]),
      if_neg (by simp [isSepCode_false_of_lower c h1 h2])]
    simp only [Bool.false_eq_true, if_false]
    rw [ih (fun d hd => hx d (List.mem_cons_of_mem c hd)) (some c) l (f ++ [c])]
    simp

theorem scan_surname :
    ∀ (ws : List (Char × List Char)) (w0 : List Char), Surname w0 ws →
      ∀ (prev : Option Char) (l f : List Char) (b : Bool),
        scanChars prev ⟨l, f, b⟩ (surChars w0 ws) = ⟨l ++ surChars w0 ws, f, true⟩ := by
  intro ws
  induction ws with
  | nil =>
    intro w0 hs prev l f b
    obtain ⟨⟨hne, hup⟩, _⟩ := hs
    rw [surChars, List.flatMap_nil, List.append_nil, scan_upper_word w0 hup prev l f b]
    cases w0 with
    | nil => exact absurd rfl hne
    | cons c t => simp
  | cons p ps ih =>
    intro w0 hs prev l f b
    obtain ⟨⟨hne, hup⟩, hmem⟩ := hs
    obtain ⟨hsep, hword⟩ := hmem p (List.mem_cons_self p ps)
    rw [surChars, List.flatMap_cons]
    have hshape : w0 ++ (p.1 :: p.2 ++ ps.flatMap (fun q => q.1 :: q.2)) =
        (w0 ++ [p.1]) ++ surChars p.2 ps := by
      rw [surChars]
      simp
    rw [hshape, scan_append]
    rw [scan_append, scan_upper_word w0 hup prev l f b]
    cases w0 with
    | nil => exact absurd rfl hne
    | cons c0 t0 =>
      simp only [List.isEmpty_cons, Bool.false_eq_true, if_false]
      rw [scanChars, scanChars, scanStep,
        if_neg (by simp [isUpperCode_false_of_sep p.1 hsep]),
        if_pos (isSepCode_of_sep p.1 hsep)]
      simp only [if_true]
      have := ih p.2 ⟨hword, fun q hq => hmem q (List.mem_cons_of_mem p hq)⟩
        (lastOr (c0 :: t0 ++ [p.1]) prev) (l ++ (c0 :: t0 ++ [p.1])) f false
      simp only [List.cons_append, List.append_assoc] at this ⊢
      exact this

theorem stripSkip_id (l : List Char) (h : '<' ∉ l) : stripSkip l 0 = l := by
  induction l with
  | nil => rfl
  | cons c t ih =>
    have hc : c ≠ '<' := fun he => h (he ▸ List.mem_cons_self c t)
    rw [stripSkip, if_neg hc, ih (fun hm => h (List.mem_cons_of_mem c hm))]

theorem scan_render (w0 : List Char) (ws : List (Char × List Char)) (u : Char)
    (l1 : Char) (ls' : List Char) (hs : Surname w0 ws) (hu : AsciiUpper u)
    (hl : LowerChars (l1 :: ls')) :
    scanChars none ⟨[], [], false⟩ (renderDancer w0 ws u (l1 :: ls')) =
      ⟨surChars w0 ws ++ [' '], u :: l1 :: ls', false⟩ := by
  obtain ⟨h11, h12⟩ := hl l1 (List.mem_cons_self l1 ls')
  rw [renderDancer, scan_append (surChars w0 ws),
    scan_surname ws w0 hs none [] [] false, List.nil_append]
  rw [scanChars, scanStep, if_neg (by decide), if_pos (by decide)]
  simp only [if_true]
  rw [scanChars, scanStep, if_pos (isUpperCode_of_upper u hu)]
  rw [scanChars, scanStep, if_neg (by simp [isUpperCode_false_of_lower l1 h11 h12]),
    if_neg (by simp [isSepCode_false_of_lower l1 h11 h12])]
  simp only [if_true]
  rw [scan_lower_run ls' (fun d hd => hl d (List.mem_cons_of_mem l1 hd))]
  refine congrArg₂ (fun a b => ScanSt.mk a b false) ?_ ?_
  · rw [← List.concat_eq_append, List.concat_eq_append, List.dropLast_concat]
  · simp

theorem surChars_mem (w0 : List Char) (ws : List (Char × List Char))
    (hs : Surname w0 ws) : ∀ c ∈ surChars w0 ws, AsciiUpper c ∨ SepChar c := by
  intro c hc
  rw [surChars] at hc
  rcases List.mem_append.mp hc with hc | hc
  · exact Or.inl (hs.1.2 c hc)
  · obtain ⟨p, hp, hcp⟩ := List.mem_flatMap.mp hc
    rcases List.mem_cons.mp hcp with hcp | hcp
    · exact Or.inr (hcp ▸ (hs.2 p hp).1)
    · exact Or.inl ((hs.2 p hp).2.2 c hcp)

theorem renderDancer_no_lt (w0 : List Char) (ws : List (Char × List Char)) (u : Char)
    (ls : List Char) (hs : Surname w0 ws) (hu : AsciiUpper u)
    (hl : LowerChars ls) : '<' ∉ renderDancer w0 ws u ls := by
  have hlt : ('<').toNat = 60 := by decide
  intro hm
  rw [renderDancer] at hm
  rcases List.mem_append.mp hm with hm | hm
  · rcases surChars_mem w0 ws hs _ hm with hup | hsp
    · obtain ⟨h1, h2⟩ := hup
      omega
    · rcases hsp with hsp | hsp <;> exact absurd hsp (by decide)
  · rcases List.mem_cons.mp hm with hm | hm
    · exact absurd hm (by decide)
    · rcases List.mem_cons.mp hm with hm | hm
      · obtain ⟨hu1, hu2⟩ := hu
        rw [← hm] at hu1 hu2
        omega
      · obtain ⟨hc1, hc2⟩ := hl _ hm
        omega

theorem parseDancer_render (w0 : List Char) (ws : List (Char × List Char)) (u : Char)
    (l1 : Char) (ls' : List Char) (hs : Surname w0 ws) (hu : AsciiUpper u)
    (hl : LowerChars (l1 :: ls')) :
    parseDancer (String.mk (renderDancer w0 ws u (l1 :: ls'))) =
      String.mk ((u :: l1 :: ls') ++ ' ' :: surChars w0 ws ++ [' ']) := by
  have hnotag : '<' ∉ renderDancer w0 ws u (l1 :: ls') :=
    renderDancer_no_lt w0 ws u (l1 :: ls') hs hu hl
  rw [parseDancer]
  have hst : stripTags (String.mk (renderDancer w0 ws u (l1 :: ls'))) =
      String.mk (renderDancer w0 ws u (l1 :: ls')) := by
    rw [stripTags]
    exact congrArg String.mk (stripSkip_id _ hnotag)
  rw [hst]
  rw [scan_render w0 ws u l1 ls' hs hu hl]
  apply String.ext
  simp only [String.data_append]
  rw [removeAccents, removeAccents]
  simp only
  rw [removeAccents_id (u :: l1 :: ls') ?hf, removeAccents_id (surChars w0 ws ++ [' ']) ?hl2]
  case hf =>
    intro c hc
    rcases List.mem_cons.mp hc with hc | hc
    · obtain ⟨h1, h2⟩ := hu
      rw [hc]
      omega
    · obtain ⟨h1, h2⟩ := hl c hc
      omega
  case hl2 =>
    intro c hc
    rcases List.mem_append.mp hc with hc | hc
    · rcases surChars_mem w0 ws hs c hc with hup | hsp
      · obtain ⟨h1, h2⟩ := hup
        omega
      · rcases hsp with hsp | hsp <;> rw [hsp] <;> decide
    · rcases List.mem_cons.mp hc with hc | hc
      · rw [hc]; decide
      · exact absurd hc (List.not_mem_nil c)
  simp

theorem map_toLower_id_lowers (l : List Char) (hl : LowerChars l) :
    l.map jsToLowerChar = l := by
  induction l with
  | nil => rfl
  | cons c t ih =>
    obtain ⟨h1, h2⟩ := hl c (List.mem_cons_self c t)
    rw [List.map_cons, jsToLowerChar_id_lower c h1 h2,
      ih (fun d hd => hl d (List.mem_cons_of_mem c hd))]

theorem jsToLowerChar_sep (c : Char) (h : SepChar c) : jsToLowerChar c = c := by
  rcases h with h | h <;> subst h <;> decide

theorem notBoundary_of_lower (c : Char) (h1 : 97 ≤ c.toNat) (h2 : c.toNat ≤ 122) :
    (isSpaceJs c || c == '-') = false := by
  rw [isSpaceJs_false_of_letter c (by omega) h2]
  simp only [Bool.false_or, beq_eq_false_iff_ne]
  intro he
  rw [he] at h1
  exact absurd h1 (by decide)

theorem tScan_cons (c : Char) (rest : List Char) :
    tScan (c :: rest) =
      if isSpaceJs c || c == '-' then
        match rest with
        | [] => [c]
        | d :: rest' =>
          if isSpaceJs d then c :: tScan (d :: rest')
          else c :: jsToUpperChar d :: tScan rest'
      else c :: tScan rest := by
  rw [tScan.eq_def]

theorem tScan_boundary_next (c d : Char) (rest : List Char)
    (hb : (isSpaceJs c || c == '-') = true) (hd : isSpaceJs d = false) :
    tScan (c :: d :: rest) = c :: jsToUpperChar d :: tScan rest := by
  rw [tScan_cons, if_pos hb]
  show (if isSpaceJs d then c :: tScan (d :: rest)
        else c :: jsToUpperChar d :: tScan rest) = _
  rw [if_neg (by simp [hd])]

theorem tScan_skip (xs : List Char) (hx : ∀ c ∈ xs, (isSpaceJs c || c == '-') = false) :
    ∀ ys : List Char, tScan (xs ++ ys) = xs ++ tScan ys := by
  induction xs with
  | nil => intro ys; rfl
  | cons c t ih =>
    intro ys
    rw [List.cons_append, tScan_cons, if_neg (by simp [hx c (List.mem_cons_self c t)]),
      ih (fun d hd => hx d (List.mem_cons_of_mem c hd)) ys, List.cons_append]

theorem tScan_words :
    ∀ ps : List (Char × List Char), (∀ p ∈ ps, SepChar p.1 ∧ UpperWord p.2) →
      tScan (ps.flatMap (fun p => p.1 :: p.2.map jsToLowerChar) ++ [' ']) =
        ps.flatMap (fun p => p.1 :: titlecaseWord p.2) ++ [' '] := by
  intro ps
  induction ps with
  | nil =>
    intro hps
    decide
  | cons p ps' ih =>
    intro hps
    obtain ⟨hsep, hne, hword⟩ := hps p (List.mem_cons_self p ps')
    obtain ⟨h, t, hw⟩ : ∃ h t, p.2 = h :: t := by
      cases hpw : p.2 with
      | nil => exact absurd hpw hne
      | cons h t => exact ⟨h, t, rfl⟩
    have hboundary : (isSpaceJs p.1 || p.1 == '-') = true := by
      rcases hsep with hsp | hsp <;> rw [hsp] <;> decide
    have hhead := hword h (hw ▸ List.mem_cons_self h t)
    have hh32 := jsToLowerChar_upper h hhead
    have hh1 : 65 ≤ h.toNat := hhead.1
    have hh2 : h.toNat ≤ 90 := hhead.2
    rw [List.flatMap_cons, hw, List.map_cons, List.cons_append, List.cons_append,
      List.append_assoc, List.cons_append,
      tScan_boundary_next p.1 (jsToLowerChar h) _ hboundary
        (isSpaceJs_false_of_letter (jsToLowerChar h) (by omega) (by omega))]
    rw [tScan_skip (t.map jsToLowerChar) ?hlow
      (ps'.flatMap (fun q => q.1 :: q.2.map jsToLowerChar) ++ [' '])]
    case hlow =>
      intro c hc
      obtain ⟨d, hd, hdc⟩ := List.mem_map.mp hc
      have hdup := hword d (hw ▸ List.mem_cons_of_mem h hd)
      have h32 := jsToLowerChar_upper d hdup
      obtain ⟨hd1, hd2⟩ := hdup
      rw [← hdc]
      exact notBoundary_of_lower (jsToLowerChar d) (by omega) (by omega)
    rw [ih (fun q hq => hps q (List.mem_cons_of_mem p hq))]
    rw [jsToUpperChar_lower_roundtrip h hhead, List.flatMap_cons, hw, titlecaseWord]
    simp [List.append_assoc]

theorem flatMap_toLower_sur (ws : List (Char × List Char))
    (hsep : ∀ p ∈ ws, SepChar p.1) :
    (ws.flatMap (fun p => p.1 :: p.2)).map jsToLowerChar =
      ws.flatMap (fun p => p.1 :: p.2.map jsToLowerChar) := by
  induction ws with
  | nil => rfl
  | cons p ps ih =>
    rw [List.flatMap_cons, List.flatMap_cons, List.map_append, List.map_cons,
      jsToLowerChar_sep p.1 (hsep p (List.mem_cons_self p ps)),
      ih (fun q hq => hsep q (List.mem_cons_of_mem p hq))]

theorem jsTitleize_dancer (w0 : List Char) (ws : List (Char × List Char)) (u : Char)
    (l1 : Char) (ls' : List Char) (hs : Surname w0 ws) (hu : AsciiUpper u)
    (hl : LowerChars (l1 :: ls')) :
    jsTitleize (String.mk ((u :: l1 :: ls') ++ ' ' :: surChars w0 ws ++ [' '])) =
      String.mk ((u :: l1 :: ls') ++ ' ' :: titlecaseSur w0 ws ++ [' ']) := by
  have hu32 := jsToLowerChar_upper u hu
  have hu1 : 65 ≤ u.toNat := hu.1
  have hu2 : u.toNat ≤ 90 := hu.2
  have hdata : (jsToLower (String.mk ((u :: l1 :: ls') ++ ' ' :: surChars w0 ws ++ [' ']))).data =
      jsToLowerChar u :: ((l1 :: ls') ++
        (' ' :: (surChars w0 ws).map jsToLowerChar ++ [' '])) := by
    show ((u :: l1 :: ls') ++ ' ' :: surChars w0 ws ++ [' ']).map jsToLowerChar = _
    have hsp : jsToLowerChar ' ' = ' ' := by decide
    have hls : ls'.map jsToLowerChar = ls' :=
      map_toLower_id_lowers ls' (fun d hd => hl d (List.mem_cons_of_mem l1 hd))
    have hl1' : jsToLowerChar l1 = l1 :=
      jsToLowerChar_id_lower l1 (hl l1 (List.mem_cons_self l1 ls')).1
        (hl l1 (List.mem_cons_self l1 ls')).2
    simp [hsp, hls, hl1', List.append_assoc]
  rw [jsTitleize]
  rw [hdata]
  simp only
  rw [if_neg (by simp [isSpaceJs_false_of_letter (jsToLowerChar u) (by omega) (by omega)])]
  rw [jsToUpperChar_lower_roundtrip u hu]
  rw [tScan_skip (l1 :: ls') ?hlf]
  case hlf =>
    intro c hc
    obtain ⟨h1, h2⟩ := hl c hc
    exact notBoundary_of_lower c h1 h2
  have hform : ' ' :: (surChars w0 ws).map jsToLowerChar ++ [' '] =
      ((' ', w0) :: ws).flatMap (fun p => p.1 :: p.2.map jsToLowerChar) ++ [' '] := by
    rw [List.flatMap_cons]
    rw [surChars, List.map_append,
      flatMap_toLower_sur ws (fun p hp => (hs.2 p hp).1)]
    simp
  rw [hform]
  rw [tScan_words ((' ', w0) :: ws) ?hws]
  case hws =>
    intro p hp
    rcases List.mem_cons.mp hp with hp | hp
    · rw [hp]
      exact ⟨Or.inl rfl, hs.1⟩
    · exact hs.2 p hp
  rw [List.flatMap_cons]
  apply String.ext
  simp only
  rw [titlecaseSur]
  simp [List.append_assoc]

theorem splitSkip_no_occur (sep : List Char) :
    ∀ l acc : List Char, containsSub sep l = false →
      splitSkip sep l 0 acc = [acc.reverse ++ l] := by
  intro l
  induction l with
  | nil =>
    intro acc h
    rw [splitSkip, List.append_nil]
  | cons c t ih =>
    intro acc h
    rw [containsSub, Bool.or_eq_false_iff] at h
    rw [splitSkip, if_neg (by simp [h.1]), ih (c :: acc) h.2]
    simp

theorem jsSplit_no_occur (s sep : String)
    (h : containsSub sep.data s.data = false) : jsSplit s sep = [s] := by
  rw [jsSplit, splitSkip_no_occur sep.data s.data [] h]
  rfl

/-- The break-marker characters. -/
def brChars : List Char := ['<', 'b', 'r', '>']

theorem brTag_data : brTag.data = brChars := by decide

theorem listStarts_self_append (pat : List Char) :
    ∀ rest : List Char, listStarts pat (pat ++ rest) = true := by
  induction pat with
  | nil => intro rest; rfl
  | cons p ps ih =>
    intro rest
    rw [List.cons_append, listStarts]
    simp [ih rest]

theorem containsSub_br_false (l : List Char) (h : '<' ∉ l) :
    containsSub brChars l = false := by
  induction l with
  | nil => decide
  | cons c t ih =>
    have hc : c ≠ '<' := fun he => h (he ▸ List.mem_cons_self c t)
    rw [containsSub, brChars, listStarts]
    have : ('<' == c) = false := by
      simp only [beq_eq_false_iff_ne]
      exact fun he => hc he.symm
    rw [this]
    simp only [Bool.false_and, Bool.false_or]
    rw [← brChars, ih (fun hm => h (List.mem_cons_of_mem c hm))]

theorem splitSkip_consume (sep : List Char) :
    ∀ (pre l acc : List Char),
      splitSkip sep (pre ++ l) pre.length acc = splitSkip sep l 0 acc := by
  intro pre
  induction pre with
  | nil => intro l acc; rfl
  | cons c pre' ih =>
    intro l acc
    rw [List.cons_append, List.length_cons, splitSkip, ih l acc]

theorem splitSkip_mid :
    ∀ (p1 p2 acc : List Char), '<' ∉ p1 → '<' ∉ p2 →
      splitSkip brChars (p1 ++ brChars ++ p2) 0 acc = [acc.reverse ++ p1, p2] := by
  intro p1
  induction p1 with
  | nil =>
    intro p2 acc h1 h2
    rw [List.nil_append]
    have hshape : brChars ++ p2 = '<' :: (['b', 'r', '>'] ++ p2) := rfl
    rw [hshape, splitSkip,
      if_pos ⟨by decide, by rw [← hshape]; exact listStarts_self_append brChars p2⟩]
    have hlen : brChars.length - 1 = (['b', 'r', '>'] : List Char).length := by decide
    rw [hlen, splitSkip_consume brChars ['b', 'r', '>'] p2 [],
      splitSkip_no_occur brChars p2 [] (containsSub_br_false p2 h2)]
    simp
  | cons c p1' ih =>
    intro p2 acc h1 h2
    have hc : c ≠ '<' := fun he => h1 (he ▸ List.mem_cons_self c p1')
    rw [List.append_assoc, List.cons_append, splitSkip]
    rw [if_neg ?hg]
    case hg =>
      intro hcon
      have := hcon.2
      rw [brChars, listStarts] at this
      have hcf : ('<' == c) = false := by
        simp only [beq_eq_false_iff_ne]
        exact fun he => hc he.symm
      rw [hcf] at this
      simp at this
    rw [← List.append_assoc, ih p2 (c :: acc) (fun hm => h1 (List.mem_cons_of_mem c hm)) h2]
    simp

/-- C3 counterexample: the spec expects
`cleanNames("DUPONT Jean<br>MARTIN Marie") = "Jean Dupont - Marie Martin"`,
but the state machine appends the separating space to the surname
accumulator before the forename is recognized, so each reconstructed
name carries a trailing space and the actual output is
`"Jean Dupont  - Marie Martin "`. -/
theorem cleanNames_example_ne :
    cleanNames ("DUPONT Jean<br>MARTIN Marie") ≠ "Jean Dupont - Marie Martin" := by
  decide

/-- C3 (amended): for every pair of dancers rendered in the source
display convention — an all-uppercase surname (one or more ASCII
uppercase words joined by single spaces or hyphens), a space, and a
mixed-case forename (an uppercase letter followed by lowercase
letters) — `cleanNames` recovers both pairs as title-cased
`"Forename Surname "` with a trailing space after each surname (the
separator absorbed by the surname accumulator), joined by `" - "`; in
particular `cleanNames("DUPONT Jean<br>MARTIN Marie")` equals
`"Jean Dupont  - Marie Martin "`. -/
theorem cleanNames_roundtrip :
    ∀ (w01 : List Char) (ws1 : List (Char × List Char)) (u1 l11 : Char)
      (ls1 : List Char) (w02 : List Char) (ws2 : List (Char × List Char))
      (u2 l21 : Char) (ls2 : List Char),
      Surname w01 ws1 → AsciiUpper u1 → LowerChars (l11 :: ls1) →
      Surname w02 ws2 → AsciiUpper u2 → LowerChars (l21 :: ls2) →
      containsSub sentinel.data
        (jsToLower (String.mk (renderDancer w01 ws1 u1 (l11 :: ls1) ++ brTag.data ++
          renderDancer w02 ws2 u2 (l21 :: ls2)))).data = false →
      cleanNames (String.mk (renderDancer w01 ws1 u1 (l11 :: ls1) ++ brTag.data ++
          renderDancer w02 ws2 u2 (l21 :: ls2))) =
        String.mk ((u1 :: l11 :: ls1) ++ ' ' :: titlecaseSur w01 ws1 ++ [' ']) ++ " - " ++
          String.mk ((u2 :: l21 :: ls2) ++ ' ' :: titlecaseSur w02 ws2 ++ [' ']) := by
  intro w01 ws1 u1 l11 ls1 w02 ws2 u2 l21 ls2 hs1 hu1 hl1 hs2 hu2 hl2 hsent
  unfold cleanNames
  rw [if_neg (by rw [hsent]; exact Bool.false_ne_true)]
  have hsplit : jsSplit (String.mk (renderDancer w01 ws1 u1 (l11 :: ls1) ++ brTag.data ++
      renderDancer w02 ws2 u2 (l21 :: ls2))) brTag =
      [String.mk (renderDancer w01 ws1 u1 (l11 :: ls1)),
       String.mk (renderDancer w02 ws2 u2 (l21 :: ls2))] := by
    rw [jsSplit, brTag_data]
    show (splitSkip brChars (renderDancer w01 ws1 u1 (l11 :: ls1) ++ brChars ++
      renderDancer w02 ws2 u2 (l21 :: ls2)) 0 []).map String.mk = _
    rw [splitSkip_mid (renderDancer w01 ws1 u1 (l11 :: ls1))
      (renderDancer w02 ws2 u2 (l21 :: ls2)) []
      (renderDancer_no_lt w01 ws1 u1 (l11 :: ls1) hs1 hu1 hl1)
      (renderDancer_no_lt w02 ws2 u2 (l21 :: ls2) hs2 hu2 hl2)]
    simp
  rw [hsplit]
  simp only [List.map_cons, List.map_nil, jsTitleizeAt, List.get?]
  rw [parseDancer_render w01 ws1 u1 l11 ls1 hs1 hu1 hl1,
    parseDancer_render w02 ws2 u2 l21 ls2 hs2 hu2 hl2,
    jsTitleize_dancer w01 ws1 u1 l11 ls1 hs1 hu1 hl1,
    jsTitleize_dancer w02 ws2 u2 l21 ls2 hs2 hu2 hl2]

/-- Witness for C3 at `DUPONT Jean` / `MARTIN Marie`: the rendered
input is `"DUPONT Jean<br>MARTIN Marie"` and the recovered couple
string is `"Jean Dupont  - Marie Martin "`. -/
theorem cleanNames_roundtrip_witness :
    Surname (("DUPONT").data) [] ∧ AsciiUpper 'J' ∧ LowerChars ('e' :: ("an").data) ∧
    Surname (("MARTIN").data) [] ∧ AsciiUpper 'M' ∧ LowerChars ('a' :: ("rie").data) ∧
    String.mk (renderDancer (("DUPONT").data) [] 'J' ('e' :: ("an").data) ++ brTag.data ++
      renderDancer (("MARTIN").data) [] 'M' ('a' :: ("rie").data)) =
      "DUPONT Jean<br>MARTIN Marie" ∧
    cleanNames (String.mk (renderDancer (("DUPONT").data) [] 'J' ('e' :: ("an").data) ++
        brTag.data ++ renderDancer (("MARTIN").data) [] 'M' ('a' :: ("rie").data))) =
      String.mk (('J' :: 'e' :: ("an").data) ++ ' ' :: titlecaseSur (("DUPONT").data) [] ++ [' ']) ++
        " - " ++
        String.mk (('M' :: 'a' :: ("rie").data) ++ ' ' :: titlecaseSur (("MARTIN").data) [] ++ [' ']) :=
  ⟨by decide, by decide, by decide, by decide, by decide, by decide, by decide,
   cleanNames_roundtrip (("DUPONT").data) [] 'J' 'e' (("an").data)
     (("MARTIN").data) [] 'M' 'a' (("rie").data)
     (by decide) (by decide) (by decide) (by decide) (by decide) (by decide) (by decide)⟩

/-! ## C9: single-name input to `cleanNames` -/

/-- C9 counterexample: on an input holding a single dancer display name
(no `<br>` marker), `cleanNames` does not fail: it silently returns a
couple string whose second half is empty (`results[1]` is `undefined`
and titleizes to the empty string). -/
theorem cleanNames_single_silent :
    cleanNames ("DUPONT Jean") = "Jean Dupont  - " := by
  decide

/-- C9 (amended): on an input that does not contain the break marker
(and is not the unknown-couple sentinel), `cleanNames` silently returns
the parsed single name followed by `" - "` and an empty second
component — a caller-observable malformed couple string, not a
failure. -/
theorem cleanNames_single_spec :
    ∀ names : String,
      containsSub sentinel.data (jsToLower names).data = false →
      containsSub brTag.data names.data = false →
      cleanNames names = jsTitleize (parseDancer names) ++ " - " := by
  intro names h1 h2
  unfold cleanNames
  rw [if_neg (by simp [h1]), jsSplit_no_occur names brTag h2]
  simp only [List.map_cons, List.map_nil, jsTitleizeAt, List.get?]
  rw [String.append_empty]

/-- Witness for C9 at the concrete single-name input. -/
theorem cleanNames_single_spec_witness :
    containsSub sentinel.data (jsToLower ("DUPONT Jean")).data = false ∧
    containsSub brTag.data ("DUPONT Jean").data = false ∧
    cleanNames ("DUPONT Jean") = jsTitleize (parseDancer ("DUPONT Jean")) ++ " - " :=
  ⟨by decide, by decide, cleanNames_single_spec ("DUPONT Jean") (by decide) (by decide)⟩

/-! ## C5: first-occurrence-wins ranking accumulation -/

theorem extractRowsAux_spec :
    ∀ (rows : List RankRow) (acc res : List (String × Option Int)),
      (acc.map Prod.fst).Nodup →
      extractRowsAux acc rows = Except.ok res →
      (res.map Prod.fst).Nodup ∧
      ∀ n : String, res.find? (fun e => e.1 == n) =
        (acc ++ rows.filterMap (fun row => row.nameCell.map
          (fun html => (cleanNames html, jsParseInt row.rankCell)))).find?
          (fun e => e.1 == n) := by
  intro rows
  induction rows with
  | nil =>
    intro acc res hnd heq
    rw [extractRowsAux] at heq
    cases heq
    exact ⟨hnd, fun n => by simp⟩
  | cons row rest ih =>
    intro acc res hnd heq
    rcases row with ⟨nameCell, rankCell⟩
    cases nameCell with
    | none => exact absurd heq (by rw [extractRowsAux]; simp)
    | some html =>
      simp only [extractRowsAux] at heq
      simp only [List.filterMap_cons]
      by_cases hmem : acc.any (fun e => e.1 == cleanNames html) = true
      · rw [if_pos hmem] at heq
        obtain ⟨hnod, hfind⟩ := ih acc res hnd heq
        refine ⟨hnod, fun n => ?_⟩
        rw [hfind n, List.find?_append, List.find?_append]
        simp only [Option.map_some']
        by_cases hn : (cleanNames html == n) = true
        · have hn' : cleanNames html = n := by exact beq_iff_eq.mp hn
          have hsome : (acc.find? (fun e => e.1 == n)).isSome = true := by
            rw [List.find?_isSome]
            obtain ⟨e, hel, hee⟩ := List.any_eq_true.mp hmem
            exact ⟨e, hel, by rw [← hn']; exact hee⟩
          obtain ⟨v, hv⟩ := Option.isSome_iff_exists.mp hsome
          rw [hv]
          rfl
        · have hb : (cleanNames html == n) = false := by
            simpa using hn
          rw [List.find?_cons]
          simp only [hb]
      · rw [if_neg hmem] at heq
        have hnotin : ∀ e ∈ acc, (e.1 == cleanNames html) = false := by
          intro e hel
          exact Bool.not_eq_true _ ▸ (List.any_eq_false.mp (Bool.not_eq_true _ ▸ hmem) e hel)
        have hnd' : (((acc ++ [(cleanNames html, jsParseInt rankCell)]).map Prod.fst)).Nodup := by
          rw [List.map_append, List.nodup_append]
          refine ⟨hnd, by simp, ?_⟩
          intro x hx hx2
          simp only [List.map_cons, List.map_nil, List.mem_cons, List.not_mem_nil,
            or_false] at hx2
          obtain ⟨e, hel, hee⟩ := List.mem_map.mp hx
          have := hnotin e hel
          rw [hx2] at hee
          rw [hee] at this
          simp at this
        obtain ⟨hnod, hfind⟩ := ih (acc ++ [(cleanNames html, jsParseInt rankCell)]) res hnd' heq
        refine ⟨hnod, fun n => ?_⟩
        rw [hfind n, List.append_assoc]
        rfl

/-- C5: when the ranking extraction of `extractRanking` succeeds, the
keys of its results mapping are unique, and the rank recorded for each
normalized couple name is the one of the first row carrying that name
in traversal order (heats in document order — the final heat first —
then rows in order); every later occurrence of the name is ignored. -/
theorem rankingResults_firstSeen :
    ∀ (heats : List (List RankRow)) (res : List (String × Option Int)),
      rankingResults heats = Except.ok res →
      (res.map Prod.fst).Nodup ∧
      ∀ n : String, res.find? (fun e => e.1 == n) =
        (rankingEntries heats).find? (fun e => e.1 == n) := by
  intro heats res heq
  obtain ⟨hnod, hfind⟩ := extractRowsAux_spec (heats.flatMap id) [] res (by simp) heq
  exact ⟨hnod, fun n => by rw [hfind n]; rfl⟩

/-- Witness for C5: the same couple appears in the final heat (rank 2)
and in a later heat (rank 5); the mapping keeps rank 2 and stays
single-keyed. -/
theorem rankingResults_firstSeen_witness :
    (([("Jean Dupont  - Marie Martin ", some 2)] :
        List (String × Option Int)).map Prod.fst).Nodup ∧
    ([("Jean Dupont  - Marie Martin ", some 2)] :
        List (String × Option Int)).find?
        (fun e => e.1 == "Jean Dupont  - Marie Martin ") =
      (rankingEntries [[⟨some ("DUPONT Jean<br>MARTIN Marie"), "2"⟩],
        [⟨some ("DUPONT Jean<br>MARTIN Marie"), "5"⟩]]).find?
        (fun e => e.1 == "Jean Dupont  - Marie Martin ") :=
  ⟨(rankingResults_firstSeen [[⟨some ("DUPONT Jean<br>MARTIN Marie"), "2"⟩],
      [⟨some ("DUPONT Jean<br>MARTIN Marie"), "5"⟩]]
      [("Jean Dupont  - Marie Martin ", some 2)] (by decide)).1,
   (rankingResults_firstSeen [[⟨some ("DUPONT Jean<br>MARTIN Marie"), "2"⟩],
      [⟨some ("DUPONT Jean<br>MARTIN Marie"), "5"⟩]]
      [("Jean Dupont  - Marie Martin ", some 2)] (by decide)).2
      ("Jean Dupont  - Marie Martin ")⟩

/-! ## C6: the serial task runner -/

theorem runSeriallyAux_all_ok {ε α : Type} (vals : List α) :
    ∀ i : Nat, @runSeriallyAux ε α i (vals.map Except.ok) =
      (Except.ok vals, List.range' i vals.length) := by
  induction vals with
  | nil => intro i; rfl
  | cons a t ih =>
    intro i
    simp only [List.map_cons, runSeriallyAux, ih (i + 1), List.length_cons,
      List.range'_succ, Except.map]

theorem runSeriallyAux_fail {ε α : Type} (vals : List α) (e : ε)
    (rest : List (Except ε α)) :
    ∀ i : Nat, runSeriallyAux i (vals.map Except.ok ++ Except.error e :: rest) =
      (Except.error e, List.range' i (vals.length + 1)) := by
  induction vals with
  | nil => intro i; simp [runSeriallyAux, List.range'_succ]
  | cons a t ih =>
    intro i
    simp only [List.map_cons, List.cons_append, runSeriallyAux, List.append_eq,
      ih (i + 1), List.length_cons, List.range'_succ, Except.map]

/-- C6: the serial runner invokes the operations in order up to and
including the first failing one (0-based indices `0..k` where operation
`k` is the first to fail), never invokes the later ones, and settles
with that failure, discarding the completed results; when every
operation succeeds it settles with the ordered list of their results
after invoking all of them. -/
theorem runSerially_spec :
    ∀ (ε α : Type) (vals : List α) (e : ε) (rest : List (Except ε α)),
      runSerially (vals.map Except.ok ++ Except.error e :: rest) =
        (Except.error e, List.range (vals.length + 1)) ∧
      @runSerially ε α (vals.map Except.ok) =
        (Except.ok vals, List.range vals.length) := by
  intro ε α vals e rest
  constructor
  · simp only [runSerially, runSeriallyAux_fail, List.range_eq_range']
  · simp only [runSerially, runSeriallyAux_all_ok, List.range_eq_range']

end Ffds
